import Mathlib

/-!
Verification development for the Monogatari "unspaghettifier"
(`unspaghetti.py`): a shallow embedding of its data extraction and DOT
rendering pipeline over `List Char`, together with theorems settling the
specification's claims.

Modelling conventions:
* Python strings are embedded as `List Char` (`Text`); `str` converts a
  Lean string literal.
* Python's `re` patterns used by the program are embedded as explicit
  scanning functions with the exact matching semantics of each concrete
  pattern (leftmost, non-overlapping matches; greedy/lazy behaviour of the
  specific pattern is resolved by hand and noted at each definition).
* The character classes `\w` and `\s` are modelled by their ASCII parts
  (`isPyWord`, `isPySpace`).  Python additionally accepts non-ASCII word
  and space characters; none of the properties below distinguish the two
  readings (space, semicolon, quote, brace and newline are classified
  identically by both).
* Recursive scanners take an explicit fuel argument (always instantiated
  with the text length plus one, which is an upper bound on the number of
  scanning steps) so every definition is structurally recursive and
  kernel-reducible.
-/

namespace Unspaghetti

abbrev Text := List Char

/-- Convert a Lean string literal into the `List Char` representation. -/
def str (s : String) : Text := s.data

/-- Opening curly brace character. -/
def lcurly : Char := Char.ofNat 123

/-- Closing curly brace character. -/
def rcurly : Char := Char.ofNat 125

/-- Single quote character. -/
def squote : Char := Char.ofNat 39

/-- Double quote character. -/
def dquote : Char := Char.ofNat 34

/-- ASCII part of Python's regex class `\w` (word characters:
letters, digits, underscore). -/
def isPyWord (c : Char) : Bool := c.isAlpha || c.isDigit || c = '_'

/-- ASCII part of Python's regex class `\s` (whitespace characters). -/
def isPySpace (c : Char) : Bool :=
  c = ' ' || c = '\t' || c = '\n' || c = '\r' || c = '\x0b' || c = '\x0c'

/-- Model of `read_file`'s post-processing
`''.join(re.split(r'\t|\n', contents))`: every tab and newline character
is removed (not replaced). The file-system read itself is modelled in the
run-event layer below. -/
def read_strip (contents : Text) : Text :=
  contents.filter (fun c => !(c = '\t' || c = '\n'))

/-! ### `jump \w+` extraction (`monogatari_jump`, used by both parsers) -/

/-- Attempt to match the pattern `jump \w+` at the start of `l`
(the literal `jump `, then a greedy non-empty run of word characters).
On success, returns the full match and the rest of the input. -/
def tryJump (l : Text) : Option (Text × Text) :=
  if (str "jump ").isPrefixOf l then
    let t := l.drop 5
    let run := t.takeWhile isPyWord
    if run.isEmpty then none
    else some (str "jump " ++ run, t.dropWhile isPyWord)
  else none

/-- Scanning loop of `re.findall(r'jump \w+', l)`: leftmost,
non-overlapping matches, scanning resumes after each match. -/
def jumpAux : Nat → Text → List Text
  | 0, _ => []
  | _ + 1, [] => []
  | f + 1, c :: rest =>
    match tryJump (c :: rest) with
    | some (m, r) => m :: jumpAux f r
    | none => jumpAux f rest

/-- Model of `re.findall(monogatari_jump, l)`: all matches of `jump \w+`. -/
def findJumpStrs (l : Text) : List Text := jumpAux (l.length + 1) l

/-- The `[j[5:] for j in jumps]` step shared by both parsers: strip the
5-character prefix `jump ` from each match. -/
def jumpNames (l : Text) : List Text := (findJumpStrs l).map (fun j => j.drop 5)

/-! ### Regular label dialect: `monogatari\.label\s?\(.*?\]\);?` -/

/-- Lazy scan of `.*?\]\)`: consume characters (each must differ from
newline, which `.` does not match) up to the first occurrence of `])`,
returning the consumed text including the `])` and the rest after it.
Returns `none` when no `])` is reachable. -/
def scanCloseBr : Nat → Text → Option (Text × Text)
  | _, ']' :: ')' :: rest => some (str "])", rest)
  | 0, _ => none
  | _ + 1, [] => none
  | f + 1, c :: rest =>
    if c = '\n' then none
    else (scanCloseBr f rest).map (fun p => (c :: p.1, p.2))

/-- Greedy `;?`: consume a semicolon when one is next. -/
def semiOpt : Text → Text × Text
  | ';' :: rest => (str ";", rest)
  | l => ([], l)

/-- Attempt to match `monogatari\.label\s?\(.*?\]\);?` at the start of
`l`.  The greedy `\s?` either matches nothing (next char is `(`) or one
whitespace character followed by `(`; no other backtracking path of the
pattern can succeed.  Returns the full match and the rest of the input. -/
def tryRegularLabel (l : Text) : Option (Text × Text) :=
  if (str "monogatari.label").isPrefixOf l then
    match l.drop 16 with
    | '(' :: rest =>
      (scanCloseBr (rest.length + 1) rest).map (fun p =>
        let s := semiOpt p.2
        (str "monogatari.label(" ++ p.1 ++ s.1, s.2))
    | c :: '(' :: rest =>
      if isPySpace c then
        (scanCloseBr (rest.length + 1) rest).map (fun p =>
          let s := semiOpt p.2
          (str "monogatari.label" ++ [c, '('] ++ p.1 ++ s.1, s.2))
      else none
    | _ => none
  else none

/-- Scanning loop of `re.finditer` for the regular-label pattern. -/
def regularAux : Nat → Text → List Text
  | 0, _ => []
  | _ + 1, [] => []
  | f + 1, c :: rest =>
    match tryRegularLabel (c :: rest) with
    | some (m, r) => m :: regularAux f r
    | none => regularAux f rest

/-- Model of `regular_labels(file_no_spaces)`: every match of
`monogatari\.label\s?\(.*?\]\);?` in the stripped file text, in textual
order. -/
def regular_labels (s : Text) : List Text := regularAux (s.length + 1) s

/-! ### Python `str.split` with a literal separator -/

/-- Loop of Python's `str.split(sep)` for a non-empty literal separator:
split at every leftmost, non-overlapping occurrence of `sep`. `acc` holds
the current piece reversed. -/
def splitOnSubAux (sep : Text) : Nat → Text → Text → List Text
  | 0, acc, l => [acc.reverse ++ l]
  | f + 1, acc, l =>
    if sep.isPrefixOf l then
      acc.reverse :: splitOnSubAux sep f [] (l.drop sep.length)
    else
      match l with
      | [] => [acc.reverse]
      | c :: rest => splitOnSubAux sep f (c :: acc) rest

/-- Model of Python's `str.split(sep)` (non-empty `sep`). -/
def splitOnSub (sep l : Text) : List Text := splitOnSubAux sep (l.length + 1) [] l

/-- Model of `parse_regular(label)`: given the matched text of a regular
label, return `(name, jump targets)`.

Source steps mirrored one by one:
`label_content = label.group().split('monogatari.label')[1]` (the matched
text always contains the separator, so index 1 exists; `getD` with
default `[]` is exact on all inputs the program produces),
`label_name = label_content[2:].split('\x27')[0]`,
`jumps = re.findall(monogatari_jump, label_content)` and
`jump_names = [j[5:] for j in jumps]`. -/
def parse_regular (m : Text) : Text × List Text :=
  let label_content := (splitOnSub (str "monogatari.label") m).getD 1 []
  let label_name := (splitOnSub [squote] (label_content.drop 2)).getD 0 []
  (label_name, jumpNames label_content)

/-! ### `curly_bracket_parse` -/

/-- Loop of `curly_bracket_parse`: walk the text with the running bracket
balance (`+1` on an opening brace, `-1` on a closing one), remembering in
`fl` the index of the opening brace seen at balance zero; break with
`(fl, i)` at the closing brace that brings the balance back to zero.
When the loop finishes without that break, `last_right` keeps its initial
value `0`, exactly as in the source. -/
def cbpLoop : Text → Nat → Int → Nat → Nat × Nat
  | [], _, _, fl => (fl, 0)
  | c :: rest, i, bal, fl =>
    if c = lcurly then
      cbpLoop rest (i + 1) (bal + 1) (if bal = 0 then i else fl)
    else if c = rcurly then
      if bal - 1 = 0 then (fl, i)
      else cbpLoop rest (i + 1) (bal - 1) fl
    else cbpLoop rest (i + 1) bal fl

/-- Model of `curly_bracket_parse(text)`: run the loop from index `0`,
balance `0`, `first_left = 0`, then return the Python slice
`text[first_left:last_right]` (`take` then `drop`). -/
def curly_bracket_parse (text : Text) : Text :=
  ((text.take (cbpLoop text 0 0 0).2).drop (cbpLoop text 0 0 0).1)

/-! ### Start-block dialect (`start_labels` / `parse_start`) -/

/-- Model of Python's `l.partition(sep)[2]`: the part after the first
occurrence of `sep`, or the empty string when `sep` does not occur. -/
def partAfterAux (sep : Text) : Nat → Text → Text
  | 0, _ => []
  | f + 1, l =>
    if sep.isPrefixOf l then l.drop sep.length
    else
      match l with
      | [] => []
      | _ :: rest => partAfterAux sep f rest

/-- Part of `l` after the first occurrence of `sep` (Python
`partition(sep)[2]`). -/
def partAfter (sep l : Text) : Text := partAfterAux sep (l.length + 1) l

/-- Quote alternative `(?:\"|\')` of the start-label pattern. -/
def isQuote (c : Char) : Bool := c = dquote || c = squote

/-- Lazy scan of `.*?\]`: consume characters (each must differ from
newline) up to the first `]`, returning the consumed text including the
`]` and the rest after it. -/
def scanCloseSq : Nat → Text → Option (Text × Text)
  | _, ']' :: rest => some (str "]", rest)
  | 0, _ => none
  | _ + 1, [] => none
  | f + 1, c :: rest =>
    if c = '\n' then none
    else (scanCloseSq f rest).map (fun p => (c :: p.1, p.2))

/-- Helper for `afterColon`: after one whitespace character `c`, the
opening bracket must follow. -/
def afterColonSpace (c : Char) : Text → Option (Text × Text)
  | [] => none
  | c2 :: rest2 => if c2 = '[' then some ([c], rest2) else none

/-- Greedy `\s{0,1}\[`: either `[` directly, or one whitespace character
followed by `[`.  Returns the consumed whitespace (if any) and the rest
after the `[`. -/
def afterColon : Text → Option (Text × Text)
  | [] => none
  | c :: rest =>
    if c = '[' then some ([], rest)
    else if isPySpace c then afterColonSpace c rest
    else none

/-- Continuation of the start-label match after the closing quote: the
literal colon, then `\s{0,1}\[` and the lazy scan to the first `]`. -/
def startAfterQuote (q1 : Char) (w : Text) (q2 : Char) : Text → Option (Text × Text)
  | [] => none
  | c2 :: rest3 =>
    if c2 = ':' then
      (afterColon rest3).bind (fun q =>
        (scanCloseSq (q.2.length + 1) q.2).map (fun p =>
          (q1 :: w ++ q2 :: ':' :: q.1 ++ '[' :: p.1, p.2)))
    else none

/-- Continuation of the start-label match after the word run: the second
quote alternative. -/
def startSecondQuote (q1 : Char) (w : Text) : Text → Option (Text × Text)
  | [] => none
  | q2 :: rest2 => if isQuote q2 then startAfterQuote q1 w q2 rest2 else none

/-- Attempt to match `(?:\"|\')\w+(?:\"|\')\:\s{0,1}\[.*?\]` at the
start of `l`.  The greedy `\w+` must take the maximal word-character run
(a shorter run would leave a word character where the closing quote is
required), so no other backtracking path can succeed.  Returns the full
match and the rest of the input. -/
def tryStartLabel (l : Text) : Option (Text × Text) :=
  match l with
  | [] => none
  | q1 :: rest =>
    if isQuote q1 then
      let w := rest.takeWhile isPyWord
      if w.isEmpty then none
      else startSecondQuote q1 w (rest.dropWhile isPyWord)
    else none

/-- Scanning loop of `re.finditer` for the start-label pattern. -/
def startAux : Nat → Text → List Text
  | 0, _ => []
  | _ + 1, [] => []
  | f + 1, c :: rest =>
    match tryStartLabel (c :: rest) with
    | some (m, r) => m :: startAux f r
    | none => startAux f rest

/-- Model of `start_labels(script_file_no_spaces)`: take everything after
`monogatari.script`, isolate the brace-delimited span with
`curly_bracket_parse`, and return every match of
`(?:\"|\')\w+(?:\"|\')\:\s{0,1}\[.*?\]` there, in textual order. -/
def start_labels (s : Text) : List Text :=
  let text := partAfter (str "monogatari.script") s
  let starting_script := curly_bracket_parse text
  startAux (starting_script.length + 1) starting_script

/-- Helper for the split pattern `\:\s{0,1}\[` after a whitespace
character: the opening bracket must follow. -/
def colonStepSpace : Text → Option Text
  | [] => none
  | c3 :: rest3 => if c3 = '[' then some rest3 else none

/-- Does the separator pattern `\:\s{0,1}\[` fire at a colon whose
following text is `rest`?  Returns the remainder after the consumed
separator (greedy `\s{0,1}`: the bracket directly, or one whitespace
character and then the bracket). -/
def colonStep : Text → Option Text
  | [] => none
  | c2 :: rest2 =>
    if c2 = '[' then some rest2
    else if isPySpace c2 then colonStepSpace rest2
    else none

/-- Loop of `re.split("\:\s{0,1}\[", label)`: split at every leftmost,
non-overlapping occurrence of a colon, at most one whitespace character,
and an opening square bracket. -/
def splitColonBrAux : Nat → Text → Text → List Text
  | 0, acc, l => [acc.reverse ++ l]
  | _ + 1, acc, [] => [acc.reverse]
  | f + 1, acc, c :: rest =>
    if c = ':' then
      match colonStep rest with
      | some rest2 => acc.reverse :: splitColonBrAux f [] rest2
      | none => splitColonBrAux f (c :: acc) rest
    else splitColonBrAux f (c :: acc) rest

/-- Model of `re.split("\:\s{0,1}\[", l)`. -/
def splitColonBr (l : Text) : List Text := splitColonBrAux (l.length + 1) [] l

/-- Model of `parse_start(label)`: given the matched text of a start
label, return `(name, jump targets)`.

Source steps mirrored one by one:
`name_and_content = re.split("\:\s{0,1}\[", label.group())` (a genuine
match always contains the separator pattern, so index 1 exists; `getD`
with default `[]` is exact on all inputs the program produces),
`label_name = name_and_content[0][1:-1]` (`drop 1` then `dropLast`),
`jumps = re.findall(monogatari_jump, name_and_content[1])` and
`jump_names = [j[5:] for j in jumps]`. -/
def parse_start (m : Text) : Text × List Text :=
  let name_and_content := splitColonBr m
  let label_name := ((name_and_content.getD 0 []).drop 1).dropLast
  (label_name, jumpNames (name_and_content.getD 1 []))

/-! ### `fullmatch(file_mask, file)` -/

/-- The three excluded words of `file_mask`. -/
def excludedWords : List Text := [str "options", str "main", str "storage"]

/-- The conjunction of negative lookaheads
`(?!options)(?!main)(?!storage)` at the current position: does one of the
excluded words start here? -/
def badWordAt (l : Text) : Bool := excludedWords.any (fun w => w.isPrefixOf l)

/-- Model of `fullmatch(file_mask, file)` with
`file_mask = r'^(?:(?!options)(?!main)(?!storage).)*?\.js$'`:
an anchored full match (`re.match` of the pattern followed by `\Z`).
Each starred step consumes one character with `.` (anything but a
newline) provided no excluded word starts at the current position; the
alternative is to finish with the literal `\.js` at the very end of the
string (`$` directly followed by `\Z` can only match there).  The lazy
`*?` only affects backtracking order, not the accepted language, so the
two alternatives are combined with disjunction. -/
def fullmatch_file_mask : Text → Bool
  | [] => false
  | c :: rest =>
    ((c :: rest) == str ".js")
    || (!(c == '\n') && !badWordAt (c :: rest) && fullmatch_file_mask rest)

/-! ### `story_schema` -/

/-- A label record `(name, jump targets)` and the per-file schema, as in
the source's `{file: [(label1, [jump points]), ...]}`. -/
abbrev LabelRecord := Text × List Text

/-- Per-file schema: filename paired with its ordered label records. -/
abbrev Schema := List (Text × List LabelRecord)

/-- Per-file extraction of `story_schema`'s loop body: strip the
contents, parse the `start_labels` first (only when the file is exactly
`script.js`), then append the `regular_labels` parses. -/
def file_labels (file : Text) (contents : Text) : List LabelRecord :=
  let no_spaces := read_strip contents
  (if file = str "script.js" then (start_labels no_spaces).map parse_start else [])
    ++ (regular_labels no_spaces).map parse_regular

/-- Model of `story_schema(folder)` over an explicit directory listing of
`(filename, contents)` pairs in enumeration order: keep exactly the files
accepted by `fullmatch(file_mask, file)` and map each to its label
records.  (A real directory never lists the same name twice, so the
insertion-ordered dict of the source is exactly this ordered association
list.) -/
def story_schema (listing : List (Text × Text)) : Schema :=
  listing.filterMap (fun p =>
    if fullmatch_file_mask p.1 then some (p.1, file_labels p.1 p.2) else none)

/-! ### `viz_js`: DOT document generation -/

/-- The fixed six-colour palette handed to `itertools.cycle`. -/
def palette : List Text :=
  [str "yellow", str "green", str "pink", str "lightblue", str "orange", str "grey"]

/-- State of `itertools.cycle` over a list: the saved element list and
the elements still pending before the next wrap-around. -/
structure CycleSt where
  saved : List Text
  pending : List Text
deriving Repr, DecidableEq

/-- Model of `next(colors)`: pop the next pending element, wrapping
around to the saved list when the pending ones are exhausted.  (On an
empty saved list Python's `next` would raise `StopIteration`; the
program only cycles the non-empty `palette`, so that branch is
unreachable and modelled by a dummy value.) -/
def cycleNext (st : CycleSt) : Text × CycleSt :=
  match st.pending with
  | c :: rest => (c, ⟨st.saved, rest⟩)
  | [] =>
    match st.saved with
    | c :: rest => (c, ⟨st.saved, rest⟩)
    | [] => ([], st)

/-- Model of `re.sub("-", "_", file[:-3].capitalize())`: drop the last
three characters (the `.js` extension), apply Python's
`str.capitalize()` (first character upper-cased, every other character
lower-cased; `Char.toUpper`/`Char.toLower` are the ASCII part of the
Python behaviour), then replace every hyphen with an underscore. -/
def subgraph_name (file : Text) : Text :=
  let capitalized :=
    match file.take (file.length - 3) with
    | [] => []
    | c :: rest => c.toUpper :: rest.map Char.toLower
  capitalized.map (fun c => if c = '-' then '_' else c)

/-- Chunks written for one label record inside a cluster, paired with the
names this record appends to the global `end_nodes` list: a
`Start [shape=box];` override when the name is exactly `Start`; then one
edge statement per jump when there are jumps, and otherwise no edge and
the record's name collected as an end node. -/
def node_out (node : LabelRecord) : List Text × List Text :=
  let startChunk :=
    if node.1 = str "Start" then [str "\t\tStart [shape=box];\n"] else []
  match node.2 with
  | [] => (startChunk, [node.1])
  | jumps =>
    (startChunk
      ++ jumps.map (fun jump => str "\t\t" ++ node.1 ++ str " -> " ++ jump ++ str ";\n"),
     [])

/-- Chunks written by the inner record loop of `viz_js` for one file,
paired with the collected end-node names. -/
def nodes_out : List LabelRecord → List Text × List Text
  | [] => ([], [])
  | node :: rest =>
    ((node_out node).1 ++ (nodes_out rest).1, (node_out node).2 ++ (nodes_out rest).2)

/-- Chunks written for one file's subgraph cluster (opening line, node
style line, record chunks, label line and closing brace), paired with the
collected end-node names. -/
def file_chunks (color : Text) (file : Text) (nodes : List LabelRecord) :
    List Text × List Text :=
  ([str "\n\tsubgraph " ++ subgraph_name file ++ str " \x7b\n",
    str "\t\tnode [style=filled, color=" ++ color ++ str "];\n"]
    ++ (nodes_out nodes).1
    ++ [str "\t\tlabel = \x22" ++ subgraph_name file ++ str "\x22;\n\t\x7d\n"],
   (nodes_out nodes).2)

/-- The subgraph loop of `viz_js`: thread the colour cycle through the
files of the schema, collecting the written chunks and the global
`end_nodes` list. -/
def viz_files : CycleSt → Schema → List Text × List Text
  | _, [] => ([], [])
  | st, (file, nodes) :: rest =>
    let c := cycleNext st
    let fc := file_chunks c.1 file nodes
    let vr := viz_files c.2 rest
    (fc.1 ++ vr.1, fc.2 ++ vr.2)

/-- The edge statement `\t%s -> end;\n` written for one end node. -/
def endEdgeChunk (n : Text) : Text := str "\t" ++ n ++ str " -> end;\n"

/-- Model of `viz_js(schema)` as the ordered list of strings passed to
`f.write`: header comment and `digraph G` opening, the per-file clusters
(colour cycle starting fresh on the palette), one `-> end` edge per
collected end node, and the closing `end [shape=Msquare]` node. -/
def viz_js_chunks (schema : Schema) : List Text :=
  let body := viz_files ⟨palette, palette⟩ schema
  [str "# I\x27m a Dot graph of your Monogatari visual novel!\n\n",
   str "digraph G \x7b\n"]
    ++ body.1
    ++ body.2.map endEdgeChunk
    ++ [str "\n\tend [shape=Msquare];   \n\x7d"]

/-- The full text of `viz.txt`: the concatenation of all written chunks. -/
def viz_js_output (schema : Schema) : Text := (viz_js_chunks schema).flatten

/-! ### Run events: the module top-level `story_schema` then `viz_js` -/

/-- Observable I/O events of one run: a successful read of a source
file, the opening of the output file `viz.txt` for writing, and one
written chunk. -/
inductive RunEvent where
  | readSrc (name : Text)
  | openOut
  | writeOut (chunk : Text)
deriving DecidableEq, Repr

/-- The `story_schema` phase over a directory listing whose contents are
`none` when reading that file would raise `IOError`: accepted files are
read in order; the first failing read raises, aborting the run (no
further events, no schema).  Returns the read events and, on success,
the schema. -/
def schema_phase : List (Text × Option Text) → List RunEvent × Option Schema
  | [] => ([], some [])
  | (file, contents?) :: rest =>
    if fullmatch_file_mask file then
      match contents? with
      | none => ([], none)
      | some contents =>
        let r := schema_phase rest
        (RunEvent.readSrc file :: r.1,
         r.2.map (fun sch => (file, file_labels file contents) :: sch))
    else schema_phase rest

/-- Model of the module top level `schema = story_schema(folder);
viz_js(schema)` as an event trace: all accepted files are read while the
schema is built; only when every read succeeded is the output file opened
and written.  A raised `IOError` propagates, ending the trace. -/
def run_events (listing : List (Text × Option Text)) : List RunEvent :=
  match schema_phase listing with
  | (evs, none) => evs
  | (evs, some sch) =>
    evs ++ RunEvent.openOut :: (viz_js_chunks sch).map RunEvent.writeOut

/-! ### Specification-side definitions

These definitions follow the wording of the specification's claims (not
the source); the theorems below compare them with the source-derived
definitions above. -/

/-- Index of the closing brace that brings the brace-nesting depth back
to zero: scanning `l` with current depth `b`, the first position whose
closing brace makes the depth zero (the specification's "the index where
depth returns to 0"), or `none` when the depth never returns to zero. -/
def closeIdx : Int → Text → Option Nat
  | _, [] => none
  | b, c :: rest =>
    if c = lcurly then (closeIdx (b + 1) rest).map (· + 1)
    else if c = rcurly then
      if b - 1 = 0 then some 0 else (closeIdx (b - 1) rest).map (· + 1)
    else (closeIdx b rest).map (· + 1)

/-- Occurrence of `w` anywhere inside `s` (the specification's "occurs
anywhere in the name"): `w` is a prefix of some suffix of `s`. -/
def occursInB (w s : Text) : Bool :=
  (List.range (s.length + 1)).any (fun i => w.isPrefixOf (s.drop i))

/-- The name ends with the script extension `.js`. -/
def endsWithJsB (s : Text) : Bool := (str ".js").isSuffixOf s

/-- The part of the name before the trailing `.js`. -/
def stem (s : Text) : Text := s.take (s.length - 3)

/-- Acceptance predicate exactly as claim C4 words it: the entire name
ends with `.js` and none of the three excluded words occurs anywhere in
the name. -/
def file_mask_claimed (s : Text) : Bool :=
  endsWithJsB s && excludedWords.all (fun w => !occursInB w s)

/-- Cluster naming exactly as claim C5 words it: the filename with the
extension stripped, every hyphen replaced by an underscore, and the
first character capitalized — all other characters unchanged. -/
def subgraph_name_claimed (file : Text) : Text :=
  match (file.take (file.length - 3)).map (fun c => if c = '-' then '_' else c) with
  | [] => []
  | c :: rest => c.toUpper :: rest

/-- Cluster naming as amended: the filename with the extension stripped,
every hyphen replaced by an underscore, the first character upper-cased
and every remaining character lower-cased. -/
def subgraph_name_amended (file : Text) : Text :=
  match (file.take (file.length - 3)).map (fun c => if c = '-' then '_' else c) with
  | [] => []
  | c :: rest => c.toUpper :: rest.map Char.toLower

/-- The `(i mod 6)`-th element of the fixed six-colour palette. -/
def paletteColor (i : Nat) : Text := palette.getD (i % 6) []

/-- Cluster chunk sequence as claim C9 words it: the `i`-th file of the
schema is rendered with the `((r + i) mod 6)`-th palette colour — a pure
function of the iteration index. -/
def clusters_from (r : Nat) : Schema → List Text
  | [] => []
  | p :: rest => (file_chunks (paletteColor r) p.1 p.2).1 ++ clusters_from (r + 1) rest

/-- The terminal-name list of a schema: for each file in order, the names
of its records with no jump targets, in record order. -/
def schema_end_names : Schema → List Text
  | [] => []
  | p :: rest => (nodes_out p.2).2 ++ schema_end_names rest

/-- Number of label records of the schema whose name is `n` and whose
jump-target list is empty. -/
def terminal_count (sch : Schema) (n : Text) : Nat :=
  (sch.map (fun p => p.2.countP (fun node => node.2.isEmpty && node.1 == n))).sum

/-- The specification's Scenario D: two accepted files, each containing
one label named `X` with no jump directive. -/
def scenarioD : List (Text × Text) :=
  [(str "a.js", str "monogatari.label(\x27X\x27,[1]);"),
   (str "b.js", str "monogatari.label(\x27X\x27,[1]);")]

/-! ## Lemmas about `curly_bracket_parse` -/

theorem rcurly_ne_lcurly : ¬rcurly = lcurly := by decide

theorem cbpLoop_cons_open (rest : Text) (i : Nat) (b : Int) (fl : Nat) :
    cbpLoop (lcurly :: rest) i b fl =
      cbpLoop rest (i + 1) (b + 1) (if b = 0 then i else fl) := by
  simp [cbpLoop]

theorem cbpLoop_cons_close (rest : Text) (i : Nat) (b : Int) (fl : Nat) :
    cbpLoop (rcurly :: rest) i b fl =
      if b - 1 = 0 then (fl, i) else cbpLoop rest (i + 1) (b - 1) fl := by
  simp [cbpLoop, rcurly_ne_lcurly]

theorem cbpLoop_cons_other (c : Char) (rest : Text) (i : Nat) (b : Int) (fl : Nat)
    (h1 : ¬c = lcurly) (h2 : ¬c = rcurly) :
    cbpLoop (c :: rest) i b fl = cbpLoop rest (i + 1) b fl := by
  simp [cbpLoop, h1, h2]

theorem closeIdx_cons_open (rest : Text) (b : Int) :
    closeIdx b (lcurly :: rest) = (closeIdx (b + 1) rest).map (· + 1) := by
  simp [closeIdx]

theorem closeIdx_cons_close (rest : Text) (b : Int) :
    closeIdx b (rcurly :: rest) =
      if b - 1 = 0 then some 0 else (closeIdx (b - 1) rest).map (· + 1) := by
  simp [closeIdx, rcurly_ne_lcurly]

theorem closeIdx_cons_other (c : Char) (rest : Text) (b : Int)
    (h1 : ¬c = lcurly) (h2 : ¬c = rcurly) :
    closeIdx b (c :: rest) = (closeIdx b rest).map (· + 1) := by
  simp [closeIdx, h1, h2]

/-- The `last_right` component computed by the loop is governed by
`closeIdx`: it is the absolute break index when the balance returns to
zero, and keeps its initial value `0` otherwise. -/
theorem cbpLoop_snd (l : Text) : ∀ (i : Nat) (b : Int) (fl : Nat),
    (cbpLoop l i b fl).2 =
      (match closeIdx b l with
       | some k => i + k
       | none => 0) := by
  induction l with
  | nil => intro i b fl; simp [cbpLoop, closeIdx]
  | cons c rest ih =>
    intro i b fl
    by_cases hc : c = lcurly
    · subst hc
      rw [cbpLoop_cons_open, closeIdx_cons_open, ih]
      cases h : closeIdx (b + 1) rest with
      | none => simp
      | some k => simp; exact Nat.add_right_comm i 1 k
    · by_cases hc2 : c = rcurly
      · subst hc2
        rw [cbpLoop_cons_close, closeIdx_cons_close]
        by_cases hb : b - 1 = 0
        · simp [hb]
        · simp only [hb, if_neg, if_false]
          rw [ih]
          cases h : closeIdx (b - 1) rest with
          | none => simp
          | some k => simp; exact Nat.add_right_comm i 1 k
      · rw [cbpLoop_cons_other c rest i b fl hc hc2,
            closeIdx_cons_other c rest b hc hc2, ih]
        cases h : closeIdx b rest with
        | none => simp
        | some k => simp; exact Nat.add_right_comm i 1 k

/-- Once the balance is positive, the remembered `first_left` value is
never overwritten by the rest of the loop. -/
theorem cbpLoop_fst (l : Text) : ∀ (i : Nat) (b : Int) (fl : Nat), 1 ≤ b →
    (cbpLoop l i b fl).1 = fl := by
  induction l with
  | nil => intro i b fl _; simp [cbpLoop]
  | cons c rest ih =>
    intro i b fl hb
    by_cases hc : c = lcurly
    · subst hc
      rw [cbpLoop_cons_open]
      have hbne : ¬b = 0 := by omega
      rw [if_neg hbne]
      exact ih (i + 1) (b + 1) fl (by omega)
    · by_cases hc2 : c = rcurly
      · subst hc2
        rw [cbpLoop_cons_close]
        by_cases hz : b - 1 = 0
        · simp [hz]
        · rw [if_neg hz]
          exact ih (i + 1) (b - 1) fl (by omega)
      · rw [cbpLoop_cons_other c rest i b fl hc hc2]
        exact ih (i + 1) b fl hb

/-- Characters that are not braces only advance the loop. -/
theorem cbpLoop_pre (pre : Text) : ∀ (l : Text) (i : Nat) (fl : Nat),
    (∀ c ∈ pre, ¬c = lcurly ∧ ¬c = rcurly) →
    cbpLoop (pre ++ l) i 0 fl = cbpLoop l (i + pre.length) 0 fl := by
  induction pre with
  | nil => intro l i fl _; simp
  | cons c pre ih =>
    intro l i fl h
    have hc := h c (by simp)
    rw [List.cons_append, cbpLoop_cons_other c (pre ++ l) i 0 fl hc.1 hc.2]
    rw [ih l (i + 1) fl (fun d hd => h d (by simp [hd]))]
    have heq : i + 1 + pre.length = i + (c :: pre).length := by
      simp [List.length_cons]; omega
    rw [heq]

/-- The index returned by `closeIdx` points at a closing brace. -/
theorem closeIdx_get (l : Text) : ∀ (b : Int) (k : Nat),
    closeIdx b l = some k → l[k]? = some rcurly := by
  induction l with
  | nil => intro b k h; simp [closeIdx] at h
  | cons c rest ih =>
    intro b k h
    by_cases hc : c = lcurly
    · subst hc
      rw [closeIdx_cons_open] at h
      cases h2 : closeIdx (b + 1) rest with
      | none => rw [h2] at h; simp at h
      | some k' =>
        rw [h2] at h; simp at h
        subst h
        simpa using ih (b + 1) k' h2
    · by_cases hc2 : c = rcurly
      · subst hc2
        rw [closeIdx_cons_close] at h
        by_cases hz : b - 1 = 0
        · rw [if_pos hz] at h
          simp at h
          subst h
          simp
        · rw [if_neg hz] at h
          cases h2 : closeIdx (b - 1) rest with
          | none => rw [h2] at h; simp at h
          | some k' =>
            rw [h2] at h; simp at h
            subst h
            simpa using ih (b - 1) k' h2
      · rw [closeIdx_cons_other c rest b hc hc2] at h
        cases h2 : closeIdx b rest with
        | none => rw [h2] at h; simp at h
        | some k' =>
          rw [h2] at h; simp at h
          subst h
          simpa using ih b k' h2

/-- C3: for every input text whose script-declaration body contains
nested brace-delimited values — formally: the characters before position
`i0` are not braces, position `i0` holds the first opening brace, and the
depth-tracking scan finds the index (`i0 + 1 + k`) where the nesting
depth returns to zero — the balanced-brace scan returns the span whose
boundaries are that first `{` (included, where depth first becomes 1) and
its matching `}` (excluded, where depth returns to 0), regardless of
intervening nested braces. -/
theorem curly_balanced_span (text : Text) (i0 k : Nat)
    (hpre : ∀ c ∈ text.take i0, ¬c = lcurly ∧ ¬c = rcurly)
    (hopen : text[i0]? = some lcurly)
    (hclose : closeIdx 1 (text.drop (i0 + 1)) = some k) :
    curly_bracket_parse text = (text.take (i0 + 1 + k)).drop i0
    ∧ text[i0 + 1 + k]? = some rcurly := by
  obtain ⟨hlen, hget⟩ := List.getElem?_eq_some.mp hopen
  have hsplit : text = text.take i0 ++ lcurly :: text.drop (i0 + 1) := by
    conv_lhs => rw [← List.take_append_drop i0 text]
    rw [List.drop_eq_getElem_cons hlen, hget]
  have hlentake : (text.take i0).length = i0 := by
    rw [List.length_take]
    omega
  have hloop : cbpLoop text 0 0 0 = cbpLoop (text.drop (i0 + 1)) (i0 + 1) 1 i0 := by
    conv_lhs => rw [hsplit]
    rw [cbpLoop_pre (text.take i0) _ 0 0 hpre, hlentake]
    rw [cbpLoop_cons_open]
    simp
  have hfst : (cbpLoop text 0 0 0).1 = i0 := by
    rw [hloop]
    exact cbpLoop_fst _ _ _ _ (by omega)
  have hsnd : (cbpLoop text 0 0 0).2 = i0 + 1 + k := by
    rw [hloop, cbpLoop_snd, hclose]
  constructor
  · rw [curly_bracket_parse, hfst, hsnd]
  · rw [← List.getElem?_drop]
    exact closeIdx_get _ _ _ hclose

/-- Witness for C3 at a concrete nested input: in
`x({a:{b},c:[{d}]});r` the first opening brace is at index 2 and the
depth returns to zero at index 16, so the scan returns the slice between
them. -/
theorem curly_balanced_span_witness :
    curly_bracket_parse (str "x(\x7ba:\x7bb\x7d,c:[\x7bd\x7d]\x7d);r")
      = ((str "x(\x7ba:\x7bb\x7d,c:[\x7bd\x7d]\x7d);r").take 16).drop 2
    ∧ (str "x(\x7ba:\x7bb\x7d,c:[\x7bd\x7d]\x7d);r")[16]? = some rcurly :=
  curly_balanced_span (str "x(\x7ba:\x7bb\x7d,c:[\x7bd\x7d]\x7d);r") 2 13
    (by decide) (by decide) (by decide)

/-- C8: for every input string in which the brace-nesting depth never
returns to zero after the first opening brace (including strings with no
opening brace at all — formally: the depth-tracking scan finds no closing
index anywhere), the balanced-brace scan terminates without any failure
and returns the empty span, exactly as the source's loop leaves
`last_right = 0` and slices `text[first_left:0]`. -/
theorem curly_unterminated_silent (text : Text) (h : closeIdx 0 text = none) :
    curly_bracket_parse text = [] := by
  have hsnd : (cbpLoop text 0 0 0).2 = 0 := by
    rw [cbpLoop_snd, h]
  rw [curly_bracket_parse, hsnd]
  simp

/-- Witness for C8 at a concrete unterminated input `abc{def{x`. -/
theorem curly_unterminated_silent_witness :
    curly_bracket_parse (str "abc\x7bdef\x7bx") = [] :=
  curly_unterminated_silent (str "abc\x7bdef\x7bx") (by decide)

/-! ## Lemmas about `fullmatch(file_mask, file)` -/

/-- Each excluded word has at least four characters, so no occurrence can
start inside the three-character `.js` suffix. -/
theorem excludedWords_length : ∀ w ∈ excludedWords, 4 ≤ w.length := by decide

/-- A string without the `.js` suffix never matches the file mask. -/
theorem fullmatch_file_mask_no_suffix (s : Text)
    (h : ∀ b : Text, ¬s = b ++ str ".js") : fullmatch_file_mask s = false := by
  induction s with
  | nil => rfl
  | cons c rest ih =>
    have h1 : ((c :: rest) == str ".js") = false := by
      rw [beq_eq_false_iff_ne]
      intro he
      exact h [] (by simpa using he)
    have h2 : fullmatch_file_mask rest = false := by
      apply ih
      intro b hb
      exact h (c :: b) (by simp [hb])
    rw [fullmatch_file_mask, h1, h2]
    simp

/-- Characterization of the mask on strings with the `.js` suffix: the
starred group must walk exactly the part before the suffix, checking at
each position that the character is not a newline and that no excluded
word starts there; positions are identified with the suffixes of the
whole string longer than the three-character extension. -/
theorem fullmatch_file_mask_append (b : Text) :
    fullmatch_file_mask (b ++ str ".js") = true ↔
      ∀ t : Text, t <:+ (b ++ str ".js") → 3 < t.length →
        ¬t.head? = some '\n' ∧ badWordAt t = false := by
  induction b with
  | nil =>
    constructor
    · intro _ t ht hlen
      have := ht.length_le
      simp [str] at this
      omega
    · intro _
      decide
  | cons c b ih =>
    have h1 : ((c :: (b ++ str ".js")) == str ".js") = false := by
      rw [beq_eq_false_iff_ne]
      intro he
      have := congrArg List.length he
      simp [str] at this
    rw [show fullmatch_file_mask (c :: b ++ str ".js")
          = (((c :: (b ++ str ".js")) == str ".js")
            || (!(c == '\n') && !badWordAt (c :: (b ++ str ".js"))
                && fullmatch_file_mask (b ++ str ".js"))) from rfl, h1]
    simp only [Bool.false_or, Bool.and_eq_true, Bool.not_eq_true', beq_eq_false_iff_ne,
      ne_eq, ih]
    constructor
    · rintro ⟨⟨hnl, hbad⟩, hrest⟩ t ht hlen
      rcases List.suffix_cons_iff.mp ht with he | hsuf
      · subst he
        exact ⟨by simpa using hnl, hbad⟩
      · exact hrest t hsuf hlen
    · intro hall
      refine ⟨⟨?_, ?_⟩, ?_⟩
      · have := hall (c :: (b ++ str ".js")) List.suffix_rfl (by simp [str])
        simpa using this.1
      · exact (hall (c :: (b ++ str ".js")) List.suffix_rfl (by simp [str])).2
      · intro t ht hlen
        exact hall t (ht.trans (List.suffix_cons c _)) hlen

/-- C4 as amended: the acceptance predicate accepts a filename exactly
when the name ends with `.js`, none of the words `options`, `main`,
`storage` occurs anywhere in the name, and additionally the part before
the `.js` suffix contains no newline character (the `.` of the starred
group does not match a newline). -/
theorem file_mask_iff (s : Text) :
    fullmatch_file_mask s = true ↔
      (file_mask_claimed s = true ∧ '\n' ∉ stem s) := by
  by_cases hsuf : (str ".js").isSuffixOf s
  · obtain ⟨u, hu⟩ := List.isSuffixOf_iff_suffix.mp hsuf
    subst hu
    have hstem : stem (u ++ str ".js") = u := by
      rw [stem]
      have : (u ++ str ".js").length - 3 = u.length := by simp [str]
      rw [this, List.take_left]
    rw [fullmatch_file_mask_append u, hstem]
    have hclaim : file_mask_claimed (u ++ str ".js") = true ↔
        ∀ w ∈ excludedWords, occursInB w (u ++ str ".js") = false := by
      simp only [file_mask_claimed, Bool.and_eq_true, List.all_eq_true,
        Bool.not_eq_true']
      constructor
      · intro h w hw
        exact h.2 w hw
      · intro h
        refine ⟨?_, h⟩
        rw [endsWithJsB, List.isSuffixOf_iff_suffix]
        exact ⟨u, rfl⟩
    rw [hclaim]
    constructor
    · intro hall
      constructor
      · intro w hw
        by_contra hocc
        rw [Bool.not_eq_false, occursInB, List.any_eq_true] at hocc
        obtain ⟨i, _, hpre⟩ := hocc
        have hpre' := List.isPrefixOf_iff_prefix.mp hpre
        have hwlen : 4 ≤ w.length := excludedWords_length w hw
        have htlen : 3 < ((u ++ str ".js").drop i).length :=
          lt_of_lt_of_le (by omega) hpre'.length_le
        have := (hall _ (List.drop_suffix i _) htlen).2
        rw [badWordAt, ← Bool.not_eq_true, List.any_eq_true] at this
        exact this ⟨w, hw, hpre⟩
      · intro hnl
        obtain ⟨p, q, hpq⟩ := List.append_of_mem hnl
        have hsfx : ('\n' :: (q ++ str ".js")) <:+ (u ++ str ".js") := by
          refine ⟨p, ?_⟩
          rw [hpq]
          simp
        have := (hall _ hsfx (by simp [str])).1
        simp at this
    · rintro ⟨hwords, hnl⟩ t ht hlen
      have hteq := List.suffix_iff_eq_drop.mp ht
      set i := (u ++ str ".js").length - t.length with hidef
      have hi : i < u.length := by
        have := ht.length_le
        simp only [List.length_append] at this ⊢
        have h3 : (str ".js").length = 3 := by decide
        rw [hidef]
        simp [List.length_append, h3] at *
        omega
      constructor
      · intro hhead
        rw [hteq, List.head?_eq_getElem?, List.getElem?_drop] at hhead
        simp only [Nat.add_zero] at hhead
        rw [List.getElem?_append, if_pos hi] at hhead
        obtain ⟨hlt, hget⟩ := List.getElem?_eq_some.mp hhead
        exact hnl (hget ▸ List.getElem_mem hlt)
      · by_contra hbad
        rw [Bool.not_eq_false, badWordAt, List.any_eq_true] at hbad
        obtain ⟨w, hw, hpre⟩ := hbad
        have : occursInB w (u ++ str ".js") = true := by
          rw [occursInB, List.any_eq_true]
          refine ⟨i, List.mem_range.mpr (by omega), ?_⟩
          rw [← hteq]
          exact hpre
        rw [hwords w hw] at this
        simp at this
  · constructor
    · intro hmask
      exfalso
      have : fullmatch_file_mask s = false := by
        apply fullmatch_file_mask_no_suffix
        intro b hb
        apply hsuf
        rw [List.isSuffixOf_iff_suffix]
        exact ⟨b, hb.symm⟩
      rw [hmask] at this
      simp at this
    · rintro ⟨hclaim, _⟩
      exfalso
      rw [file_mask_claimed, Bool.and_eq_true] at hclaim
      rw [endsWithJsB] at hclaim
      exact hsuf (by simpa using hclaim.1)

/-- Witness for C4's amended equivalence at the accepted name
`script.js` and at the rejected name `main.js`. -/
theorem file_mask_iff_witness :
    fullmatch_file_mask (str "script.js") = true
    ∧ fullmatch_file_mask (str "main.js") = false :=
  ⟨(file_mask_iff (str "script.js")).mpr (by decide),
   by
    cases h2 : fullmatch_file_mask (str "main.js") with
    | false => rfl
    | true =>
      have := (file_mask_iff (str "main.js")).mp h2
      revert this
      decide⟩

/-- Counterexample to C4 as stated: the filename `a` + newline + `b.js`
ends with `.js` and contains none of the excluded words, yet the
acceptance predicate rejects it, because the `.` of the mask's starred
group does not match a newline character. -/
theorem file_mask_claim_cex :
    ¬(fullmatch_file_mask (str "a\nb.js") = true
      ↔ file_mask_claimed (str "a\nb.js") = true) := by
  decide

/-! ## Lemmas about jump-target extraction -/

/-- Every successful `jump \w+` match is the literal `jump ` followed by
a non-empty run of word characters. -/
theorem tryJump_shape (l m r : Text) (h : tryJump l = some (m, r)) :
    ∃ run, m = str "jump " ++ run ∧ ¬run = [] ∧ ∀ c ∈ run, isPyWord c = true := by
  rw [tryJump] at h
  by_cases hp : (str "jump ").isPrefixOf l
  · rw [if_pos hp] at h
    simp only at h
    by_cases he : ((l.drop 5).takeWhile isPyWord).isEmpty
    · rw [if_pos he] at h
      exact absurd h (by simp)
    · rw [if_neg he] at h
      simp only [Option.some.injEq, Prod.mk.injEq] at h
      refine ⟨(l.drop 5).takeWhile isPyWord, h.1.symm, ?_, ?_⟩
      · intro hnil
        rw [hnil] at he
        exact he rfl
      · intro c hc
        exact List.mem_takeWhile_imp hc
  · rw [if_neg hp] at h
    exact absurd h (by simp)

/-- Every match produced by the `jump \w+` scanning loop has the match
shape. -/
theorem jumpAux_shape : ∀ (f : Nat) (l m : Text), m ∈ jumpAux f l →
    ∃ run, m = str "jump " ++ run ∧ ¬run = [] ∧ ∀ c ∈ run, isPyWord c = true := by
  intro f
  induction f with
  | zero => intro l m hm; exact absurd hm (by simp [jumpAux])
  | succ f ih =>
    intro l m hm
    cases l with
    | nil => exact absurd hm (by simp [jumpAux])
    | cons c rest =>
      rw [jumpAux] at hm
      cases h2 : tryJump (c :: rest) with
      | none =>
        rw [h2] at hm
        exact ih rest m hm
      | some p =>
        rw [h2] at hm
        rcases List.mem_cons.mp hm with he | hmem
        · subst he
          exact tryJump_shape (c :: rest) p.1 p.2 (by rw [h2])
        · exact ih p.2 m hmem

/-- Every extracted jump-target name is a non-empty string of word
characters. -/
theorem jumpNames_shape (l t : Text) (ht : t ∈ jumpNames l) :
    ¬t = [] ∧ ∀ c ∈ t, isPyWord c = true := by
  rw [jumpNames, List.mem_map] at ht
  obtain ⟨j, hj, hdrop⟩ := ht
  obtain ⟨run, hjeq, hne, hword⟩ := jumpAux_shape _ _ _ hj
  subst hjeq
  have h5 : (str "jump " ++ run).drop 5 = run := by
    have hlen : (str "jump ").length = 5 := by decide
    rw [← hlen, List.drop_left]
  rw [h5] at hdrop
  subst hdrop
  exact ⟨hne, hword⟩

/-- Word characters are graph-safe: not a space, semicolon, quote or
brace. -/
theorem isPyWord_graph_safe (c : Char) (h : isPyWord c = true) :
    ¬c = ' ' ∧ ¬c = ';' ∧ ¬c = squote ∧ ¬c = dquote ∧ ¬c = lcurly ∧ ¬c = rcurly := by
  refine ⟨?_, ?_, ?_, ?_, ?_, ?_⟩ <;> intro he <;> subst he <;> revert h <;> decide

/-- C10: every jump target extracted by either dialect (the second
component of `parse_regular` or of `parse_start`) is a non-empty string
consisting only of word characters, hence contains no space, semicolon,
quote, or brace. -/
theorem jump_targets_graph_safe (m t : Text)
    (ht : t ∈ (parse_regular m).2 ∨ t ∈ (parse_start m).2) :
    ¬t = [] ∧ ∀ c ∈ t, isPyWord c = true
      ∧ ¬c = ' ' ∧ ¬c = ';' ∧ ¬c = squote ∧ ¬c = dquote ∧ ¬c = lcurly ∧ ¬c = rcurly := by
  have hjn : ∃ l, t ∈ jumpNames l := by
    rcases ht with h | h
    · exact ⟨_, h⟩
    · exact ⟨_, h⟩
  obtain ⟨l, hl⟩ := hjn
  obtain ⟨hne, hword⟩ := jumpNames_shape l t hl
  refine ⟨hne, fun c hc => ?_⟩
  have hw := hword c hc
  obtain ⟨h1, h2, h3, h4, h5, h6⟩ := isPyWord_graph_safe c hw
  exact ⟨hw, h1, h2, h3, h4, h5, h6⟩

/-- Witness for C10: the target `B` of the concrete regular label
`monogatari.label('A',[jump B]);` is a non-empty word string. -/
theorem jump_targets_graph_safe_witness :
    (str "B") ∈ (parse_regular (str "monogatari.label(\x27A\x27,[jump B]);")).2
    ∧ (¬(str "B") = [] ∧ ∀ c ∈ (str "B"), isPyWord c = true
        ∧ ¬c = ' ' ∧ ¬c = ';' ∧ ¬c = squote ∧ ¬c = dquote ∧ ¬c = lcurly ∧ ¬c = rcurly) :=
  ⟨by decide,
   jump_targets_graph_safe (str "monogatari.label(\x27A\x27,[jump B]);") (str "B")
     (Or.inl (by decide))⟩

/-! ## Lemmas about extracted label names -/

/-- The first piece of a single-character-separator split never contains
the separator: it is the longest separator-free prefix. -/
theorem splitOnSubAux_single_head (c : Char) : ∀ (f : Nat) (acc l : Text),
    l.length < f →
    (splitOnSubAux [c] f acc l).getD 0 [] =
      acc.reverse ++ l.takeWhile (fun x => !(x = c)) := by
  intro f
  induction f with
  | zero => intro acc l h; omega
  | succ f ih =>
    intro acc l h
    cases l with
    | nil => simp [splitOnSubAux]
    | cons x rest =>
      by_cases hx : x = c
      · subst hx
        have hp : ([x] : Text).isPrefixOf (x :: rest) = true := by
          simp [List.isPrefixOf]
        rw [splitOnSubAux, if_pos hp]
        simp [List.takeWhile]
      · have hp : ¬([c] : Text).isPrefixOf (x :: rest) = true := by
          simp [List.isPrefixOf]
          intro he
          exact absurd he.symm hx
        rw [splitOnSubAux, if_neg hp]
        rw [ih (x :: acc) rest (by simp at h; omega)]
        simp [List.takeWhile, hx]

/-- The name extracted by `parse_regular` never contains a single-quote
character: it is read as the piece of `label_content[2:]` that precedes
the first single quote. -/
theorem parse_regular_name_no_squote (m : Text) (c : Char)
    (hc : c ∈ (parse_regular m).1) : ¬c = squote := by
  have hhead := splitOnSubAux_single_head squote
    (((splitOnSub (str "monogatari.label") m).getD 1 []).drop 2).length.succ []
    (((splitOnSub (str "monogatari.label") m).getD 1 []).drop 2) (by omega)
  simp only [List.reverse_nil, List.nil_append] at hhead
  have : (parse_regular m).1 =
      (((splitOnSub (str "monogatari.label") m).getD 1 []).drop 2).takeWhile
        (fun x => !(x = squote)) := by
    rw [parse_regular]
    exact hhead
  rw [this] at hc
  have := List.mem_takeWhile_imp hc
  simpa using this

/-- The optional-whitespace part accepted by `afterColon` is empty or a
single whitespace character. -/
theorem afterColon_sp (l sp rest4 : Text) (h : afterColon l = some (sp, rest4)) :
    sp = [] ∨ ∃ s0, sp = [s0] ∧ isPySpace s0 = true := by
  cases l with
  | nil => exact absurd h (by simp [afterColon])
  | cons c rest =>
    simp only [afterColon] at h
    by_cases hc : c = '['
    · rw [if_pos hc] at h
      simp only [Option.some.injEq, Prod.mk.injEq] at h
      exact Or.inl h.1.symm
    · rw [if_neg hc] at h
      by_cases hs : isPySpace c
      · rw [if_pos hs] at h
        cases rest with
        | nil => exact absurd h (by simp [afterColonSpace])
        | cons c2 rest2 =>
          simp only [afterColonSpace] at h
          by_cases hc2 : c2 = '['
          · rw [if_pos hc2] at h
            simp only [Option.some.injEq, Prod.mk.injEq] at h
            exact Or.inr ⟨c, h.1.symm, hs⟩
          · rw [if_neg hc2] at h
            exact absurd h (by simp)
      · rw [if_neg hs] at h
        exact absurd h (by simp)

/-- Shape of a successful `startAfterQuote` continuation. -/
theorem startAfterQuote_shape (q1 : Char) (w : Text) (q2 : Char) (l m r : Text)
    (h : startAfterQuote q1 w q2 l = some (m, r)) :
    ∃ sp tail, m = q1 :: w ++ q2 :: ':' :: sp ++ '[' :: tail
      ∧ (sp = [] ∨ ∃ s0, sp = [s0] ∧ isPySpace s0 = true) := by
  cases l with
  | nil => exact absurd h (by simp [startAfterQuote])
  | cons c2 rest3 =>
    simp only [startAfterQuote] at h
    by_cases hc2 : c2 = ':'
    · rw [if_pos hc2] at h
      cases hac : afterColon rest3 with
      | none => rw [hac] at h; exact absurd h (by simp)
      | some q =>
        rw [hac] at h
        simp only [Option.some_bind] at h
        cases hsc : scanCloseSq (q.2.length + 1) q.2 with
        | none => rw [hsc] at h; exact absurd h (by simp)
        | some p =>
          rw [hsc] at h
          simp only [Option.map, Option.some.injEq, Prod.mk.injEq] at h
          exact ⟨q.1, p.1, h.1.symm, afterColon_sp rest3 q.1 q.2 hac⟩
    · rw [if_neg hc2] at h
      exact absurd h (by simp)

/-- Every successful start-label match decomposes as quote, non-empty
word run, quote, colon, optional single whitespace, opening bracket and
a tail. -/
theorem tryStartLabel_shape (l m r : Text) (h : tryStartLabel l = some (m, r)) :
    ∃ q1 w q2 sp tail,
      m = q1 :: w ++ q2 :: ':' :: sp ++ '[' :: tail
      ∧ isQuote q1 = true ∧ isQuote q2 = true
      ∧ ¬w = [] ∧ (∀ c ∈ w, isPyWord c = true)
      ∧ (sp = [] ∨ ∃ s0, sp = [s0] ∧ isPySpace s0 = true) := by
  cases l with
  | nil => exact absurd h (by simp [tryStartLabel])
  | cons q1 rest =>
    simp only [tryStartLabel] at h
    by_cases hq1 : isQuote q1
    · rw [if_pos hq1] at h
      by_cases hw : (rest.takeWhile isPyWord).isEmpty
      · rw [if_pos hw] at h
        exact absurd h (by simp)
      · rw [if_neg hw] at h
        cases hdw : rest.dropWhile isPyWord with
        | nil =>
          rw [hdw] at h
          exact absurd h (by simp [startSecondQuote])
        | cons q2 rest2 =>
          rw [hdw] at h
          simp only [startSecondQuote] at h
          by_cases hq2 : isQuote q2
          · rw [if_pos hq2] at h
            obtain ⟨sp, tail, hm, hsp⟩ := startAfterQuote_shape q1 _ q2 rest2 m r h
            refine ⟨q1, rest.takeWhile isPyWord, q2, sp, tail, hm, hq1, hq2, ?_, ?_, hsp⟩
            · intro hnil
              rw [hnil] at hw
              exact hw rfl
            · intro c hc
              exact List.mem_takeWhile_imp hc
          · rw [if_neg hq2] at h
            exact absurd h (by simp)
    · rw [if_neg hq1] at h
      exact absurd h (by simp)

/-- Every match produced by the start-label scanning loop has the
start-label match shape. -/
theorem startAux_shape : ∀ (f : Nat) (l m : Text), m ∈ startAux f l →
    ∃ l' r, tryStartLabel l' = some (m, r) := by
  intro f
  induction f with
  | zero => intro l m hm; exact absurd hm (by simp [startAux])
  | succ f ih =>
    intro l m hm
    cases l with
    | nil => exact absurd hm (by simp [startAux])
    | cons c rest =>
      rw [startAux] at hm
      cases h2 : tryStartLabel (c :: rest) with
      | none =>
        rw [h2] at hm
        exact ih rest m hm
      | some p =>
        rw [h2] at hm
        rcases List.mem_cons.mp hm with he | hmem
        · subst he
          exact ⟨c :: rest, p.2, by rw [h2]⟩
        · exact ih p.2 m hmem

/-- The separator pattern fires at a tail of the shape `[...` or
whitespace-then-`[...`. -/
theorem colonStep_fires (tail : Text)
    (htail : (∃ r2, tail = '[' :: r2) ∨ ∃ s0 r3, tail = s0 :: '[' :: r3 ∧ isPySpace s0 = true) :
    ∃ rest2, colonStep tail = some rest2 := by
  rcases htail with ⟨r2, hr2⟩ | ⟨s0, r3, hr3, hs0⟩
  · subst hr2
    exact ⟨r2, by simp [colonStep]⟩
  · subst hr3
    refine ⟨r3, ?_⟩
    have hs0ne : ¬s0 = '[' := by
      intro he
      rw [he] at hs0
      exact absurd hs0 (by decide)
    simp [colonStep, colonStepSpace, hs0ne, hs0]

/-- Walking a colon-free prefix `p0`, the split's first piece is exactly
`acc.reverse ++ p0` once a firing separator follows. -/
theorem splitColonBrAux_walk (p0 : Text) : ∀ (f : Nat) (acc tail : Text),
    p0.length < f → (∀ c ∈ p0, ¬c = ':') →
    ((∃ r2, tail = '[' :: r2) ∨ ∃ s0 r3, tail = s0 :: '[' :: r3 ∧ isPySpace s0 = true) →
    (splitColonBrAux f acc (p0 ++ ':' :: tail)).getD 0 [] = acc.reverse ++ p0 := by
  induction p0 with
  | nil =>
    intro f acc tail hf _ htail
    cases f with
    | zero => omega
    | succ f =>
      obtain ⟨rest2, hcs⟩ := colonStep_fires tail htail
      simp only [List.nil_append, splitColonBrAux, if_pos rfl, hcs]
      simp
  | cons c p0 ih =>
    intro f acc tail hf hc htail
    cases f with
    | zero => simp at hf
    | succ f =>
      have hcc : ¬c = ':' := hc c (by simp)
      simp only [List.cons_append, splitColonBrAux, if_neg hcc, List.append_eq]
      rw [ih f (c :: acc) tail (by simp at hf; omega)
        (fun d hd => hc d (by simp [hd])) htail]
      simp

/-- The name extracted by `parse_start` from a shaped match is exactly
the word run between the quotes. -/
theorem parse_start_shaped_name (q1 : Char) (w : Text) (q2 : Char) (sp tail : Text)
    (hq1 : isQuote q1 = true) (hq2 : isQuote q2 = true)
    (hw : ∀ c ∈ w, isPyWord c = true)
    (hsp : sp = [] ∨ ∃ s0, sp = [s0] ∧ isPySpace s0 = true) :
    (parse_start (q1 :: w ++ q2 :: ':' :: sp ++ '[' :: tail)).1 = w := by
  have hassoc : q1 :: w ++ q2 :: ':' :: sp ++ '[' :: tail
      = (q1 :: (w ++ [q2])) ++ ':' :: (sp ++ '[' :: tail) := by
    simp
  have hnocolon : ∀ c ∈ q1 :: (w ++ [q2]), ¬c = ':' := by
    intro c hcmem
    rcases List.mem_cons.mp hcmem with he | hcmem2
    · subst he
      intro he2
      rw [he2] at hq1
      exact absurd hq1 (by decide)
    · rcases List.mem_append.mp hcmem2 with hcw | hcq
      · have hcw2 := hw c hcw
        intro he2
        rw [he2] at hcw2
        exact absurd hcw2 (by decide)
      · have he := List.mem_singleton.mp hcq
        subst he
        intro he2
        rw [he2] at hq2
        exact absurd hq2 (by decide)
  have htail : (∃ r2, sp ++ '[' :: tail = '[' :: r2)
      ∨ ∃ s0 r3, sp ++ '[' :: tail = s0 :: '[' :: r3 ∧ isPySpace s0 = true := by
    rcases hsp with he | ⟨s0, he, hs0⟩
    · subst he
      exact Or.inl ⟨tail, by simp⟩
    · subst he
      exact Or.inr ⟨s0, tail, by simp, hs0⟩
  have hlen : (q1 :: (w ++ [q2])).length
      < ((q1 :: (w ++ [q2])) ++ ':' :: (sp ++ '[' :: tail)).length + 1 := by
    simp only [List.length_cons, List.length_append]
    omega
  have hsplit0 : (splitColonBr (q1 :: w ++ q2 :: ':' :: sp ++ '[' :: tail)).getD 0 []
      = q1 :: (w ++ [q2]) := by
    simp only [splitColonBr]
    rw [hassoc]
    rw [splitColonBrAux_walk (q1 :: (w ++ [q2])) _ [] _ hlen hnocolon htail]
    simp
  simp only [parse_start]
  rw [hsplit0]
  simp [List.dropLast_concat]

/-- C1 as amended: every label record extracted by the start-block
dialect has a non-empty name of word characters (hence no space,
semicolon or brace), while a record extracted by the regular-label
dialect is only guaranteed a name free of single-quote characters (the
name is read up to the first single quote of `label_content[2:]`, so it
may be empty or contain spaces, semicolons or braces). -/
theorem label_names_amended (s m m2 : Text) (hm : m ∈ start_labels s) :
    (¬(parse_start m).1 = [] ∧ ∀ c ∈ (parse_start m).1, isPyWord c = true
      ∧ ¬c = ' ' ∧ ¬c = ';' ∧ ¬c = lcurly ∧ ¬c = rcurly)
    ∧ (∀ c ∈ (parse_regular m2).1, ¬c = squote) := by
  simp only [start_labels] at hm
  obtain ⟨l', r, hl'⟩ := startAux_shape _ _ m hm
  obtain ⟨q1, w, q2, sp, tail, hmq, hq1, hq2, hwne, hword, hsp⟩ :=
    tryStartLabel_shape l' m r hl'
  subst hmq
  rw [parse_start_shaped_name q1 w q2 sp tail hq1 hq2 hword hsp]
  refine ⟨⟨hwne, fun c hc => ?_⟩, fun c hc => parse_regular_name_no_squote m2 c hc⟩
  have hw := hword c hc
  obtain ⟨h1, h2, _, _, h5, h6⟩ := isPyWord_graph_safe c hw
  exact ⟨hw, h1, h2, h5, h6⟩

/-- Witness for C1's amended statement at a concrete start label and a
concrete regular label. -/
theorem label_names_amended_witness :
    (str "\x27Start\x27: [jump A]")
        ∈ start_labels (str "monogatari.script(\x7b\x27Start\x27: [jump A]\x7d);")
    ∧ ((¬(parse_start (str "\x27Start\x27: [jump A]")).1 = []
        ∧ ∀ c ∈ (parse_start (str "\x27Start\x27: [jump A]")).1, isPyWord c = true
          ∧ ¬c = ' ' ∧ ¬c = ';' ∧ ¬c = lcurly ∧ ¬c = rcurly)
      ∧ (∀ c ∈ (parse_regular (str "monogatari.label(\x27B\x27,[1]);")).1,
          ¬c = squote)) :=
  ⟨by decide,
   label_names_amended (str "monogatari.script(\x7b\x27Start\x27: [jump A]\x7d);")
     (str "\x27Start\x27: [jump A]") (str "monogatari.label(\x27B\x27,[1]);")
     (by decide)⟩

/-- Counterexample to C1 as stated: the accepted file `a.js` containing
`monogatari.label('a b;{',[1]);monogatari.label ('c',[1]);` yields a
first record named `a b;{` (a space, a semicolon and a brace) and a
second record with an empty name (the single whitespace allowed before
the parenthesis shifts the `[2:]` slice off the quote). -/
theorem label_names_claim_cex :
    fullmatch_file_mask (str "a.js") = true
    ∧ ¬(∀ node ∈ file_labels (str "a.js")
          (str "monogatari.label(\x27a b;\x7b\x27,[1]);monogatari.label (\x27c\x27,[1]);"),
        ¬node.1 = [] ∧ ¬ ' ' ∈ node.1 ∧ ¬ ';' ∈ node.1
          ∧ ¬lcurly ∈ node.1 ∧ ¬rcurly ∈ node.1) := by
  decide

/-! ## Ordering of dialects in a file's record list (C6) -/

/-- C6: in the schema entry for the file named exactly `script.js`, the
record at position `i` (for `i` below the number of start-block matches)
is the parse of the `i`-th start-block match, and the record at position
`i` shifted past all start-block records is the parse of the `j`-th
regular match — so every start-dialect record precedes every
regular-dialect record, because the start-block dialect is scanned
first. -/
theorem script_start_records_precede (contents : Text) (i j : Nat)
    (hi : i < (start_labels (read_strip contents)).length) :
    (file_labels (str "script.js") contents)[i]?
        = ((start_labels (read_strip contents)).map parse_start)[i]?
    ∧ (file_labels (str "script.js") contents)[
          (start_labels (read_strip contents)).length + j]?
        = ((regular_labels (read_strip contents)).map parse_regular)[j]? := by
  have hfl : file_labels (str "script.js") contents
      = (start_labels (read_strip contents)).map parse_start
        ++ (regular_labels (read_strip contents)).map parse_regular := by
    simp [file_labels]
  constructor
  · rw [hfl, List.getElem?_append, if_pos (by simp only [List.length_map]; omega)]
  · rw [hfl, List.getElem?_append,
      if_neg (by simp only [List.length_map]; omega)]
    congr 1
    simp only [List.length_map]
    omega

/-- Witness for C6 at a concrete `script.js` with one start-block label
and one regular label. -/
theorem script_start_records_precede_witness :
    0 < (start_labels (read_strip
        (str "monogatari.script(\x7b\x27Start\x27: [jump A]\x7d);monogatari.label(\x27B\x27,[jump C]);"))).length
    ∧ ((file_labels (str "script.js")
          (str "monogatari.script(\x7b\x27Start\x27: [jump A]\x7d);monogatari.label(\x27B\x27,[jump C]);"))[0]?
        = ((start_labels (read_strip
            (str "monogatari.script(\x7b\x27Start\x27: [jump A]\x7d);monogatari.label(\x27B\x27,[jump C]);"))).map
              parse_start)[0]?
      ∧ (file_labels (str "script.js")
          (str "monogatari.script(\x7b\x27Start\x27: [jump A]\x7d);monogatari.label(\x27B\x27,[jump C]);"))[
            (start_labels (read_strip
              (str "monogatari.script(\x7b\x27Start\x27: [jump A]\x7d);monogatari.label(\x27B\x27,[jump C]);"))).length + 0]?
        = ((regular_labels (read_strip
            (str "monogatari.script(\x7b\x27Start\x27: [jump A]\x7d);monogatari.label(\x27B\x27,[jump C]);"))).map
              parse_regular)[0]?) :=
  ⟨by decide,
   script_start_records_precede
     (str "monogatari.script(\x7b\x27Start\x27: [jump A]\x7d);monogatari.label(\x27B\x27,[jump C]);")
     0 0 (by decide)⟩

/-! ## Run-event ordering (C7) -/

/-- When some accepted file fails to read, the schema phase produces no
schema. -/
theorem schema_phase_none (listing : List (Text × Option Text))
    (h : ∃ p ∈ listing, fullmatch_file_mask p.1 = true ∧ p.2 = none) :
    (schema_phase listing).2 = none := by
  induction listing with
  | nil => simp at h
  | cons q rest ih =>
    obtain ⟨qf, qc⟩ := q
    obtain ⟨p, hp, hacc, hnone⟩ := h
    rcases List.mem_cons.mp hp with he | hmem
    · subst he
      simp only at hacc hnone
      simp only [schema_phase, hacc, hnone, if_true]
    · simp only [schema_phase]
      by_cases hq : fullmatch_file_mask qf
      · rw [if_pos hq]
        cases hc : qc with
        | none => rfl
        | some contents =>
          simp only
          rw [ih ⟨p, hmem, hacc, hnone⟩]
          rfl
      · rw [if_neg hq]
        exact ih ⟨p, hmem, hacc, hnone⟩

/-- The schema phase only emits source-read events. -/
theorem schema_phase_reads (listing : List (Text × Option Text)) :
    ∀ e ∈ (schema_phase listing).1, ∃ nm, e = RunEvent.readSrc nm := by
  induction listing with
  | nil => simp [schema_phase]
  | cons q rest ih =>
    obtain ⟨qf, qc⟩ := q
    intro e he
    simp only [schema_phase] at he
    by_cases hq : fullmatch_file_mask qf
    · rw [if_pos hq] at he
      cases hc : qc with
      | none =>
        rw [hc] at he
        simp at he
      | some contents =>
        rw [hc] at he
        simp only at he
        rcases List.mem_cons.mp he with he2 | hmem
        · exact ⟨qf, he2⟩
        · exact ih e hmem
    · rw [if_neg hq] at he
      exact ih e he

/-- C7: if reading any accepted source file fails, the whole run aborts
before the output file is opened: the event trace contains no
output-open event — indeed nothing but source reads.  The output file is
opened only on the trace branch where the schema phase completed over
every accepted file. -/
theorem output_open_only_after_reads (listing : List (Text × Option Text))
    (h : ∃ p ∈ listing, fullmatch_file_mask p.1 = true ∧ p.2 = none) :
    ¬RunEvent.openOut ∈ run_events listing
    ∧ ∀ e ∈ run_events listing, ∃ nm, e = RunEvent.readSrc nm := by
  have hnone := schema_phase_none listing h
  have hsp : schema_phase listing = ((schema_phase listing).1, none) := by
    rw [← hnone]
  have hre : run_events listing = (schema_phase listing).1 := by
    rw [run_events, hsp]
  rw [hre]
  refine ⟨?_, schema_phase_reads listing⟩
  intro hmem
  obtain ⟨nm, hnm⟩ := schema_phase_reads listing RunEvent.openOut hmem
  exact RunEvent.noConfusion hnm

/-- Witness for C7: a listing whose only accepted file fails to read
produces a trace without the output-open event. -/
theorem output_open_only_after_reads_witness :
    (∃ p ∈ [((str "a.js" : Text), (none : Option Text))],
        fullmatch_file_mask p.1 = true ∧ p.2 = none)
    ∧ (¬RunEvent.openOut ∈ run_events [(str "a.js", none)]
      ∧ ∀ e ∈ run_events [(str "a.js", none)], ∃ nm, e = RunEvent.readSrc nm) :=
  ⟨⟨(str "a.js", none), by decide, by decide, rfl⟩,
   output_open_only_after_reads [(str "a.js", none)]
     ⟨(str "a.js", none), by decide, by decide, rfl⟩⟩

/-! ## Cluster naming (C5) -/

/-- Conversion from a valid code point back to the code point. -/
theorem char_toNat_ofNat_valid (n : Nat) (h : n.isValidChar) :
    (Char.ofNat n).toNat = n := by
  rw [Char.ofNat, dif_pos h]
  rfl

/-- Lower-casing maps no character other than the hyphen to a hyphen. -/
theorem toLower_eq_hyphen (c : Char) (h : Char.toLower c = '-') : c = '-' := by
  simp only [Char.toLower] at h
  by_cases hcond : c.toNat ≥ 65 ∧ c.toNat ≤ 90
  · exfalso
    rw [if_pos hcond] at h
    have h2 := congrArg Char.toNat h
    rw [char_toNat_ofNat_valid _ (by rw [Nat.isValidChar]; left; omega)] at h2
    have h45 : ('-' : Char).toNat = 45 := by decide
    omega
  · rwa [if_neg hcond] at h

/-- Upper-casing maps no character other than the hyphen to a hyphen. -/
theorem toUpper_eq_hyphen (c : Char) (h : Char.toUpper c = '-') : c = '-' := by
  simp only [Char.toUpper] at h
  by_cases hcond : c.toNat ≥ 97 ∧ c.toNat ≤ 122
  · exfalso
    rw [if_pos hcond] at h
    have h2 := congrArg Char.toNat h
    rw [char_toNat_ofNat_valid _ (by rw [Nat.isValidChar]; left; omega)] at h2
    have h45 : ('-' : Char).toNat = 45 := by decide
    omega
  · rwa [if_neg hcond] at h

/-- Hyphen replacement commutes with lower-casing. -/
theorem hyphen_toLower_comm (c : Char) :
    (if Char.toLower c = '-' then '_' else Char.toLower c)
      = Char.toLower (if c = '-' then '_' else c) := by
  by_cases hc : c = '-'
  · subst hc
    decide
  · rw [if_neg hc]
    rw [if_neg (fun h => hc (toLower_eq_hyphen c h))]

/-- Hyphen replacement commutes with upper-casing. -/
theorem hyphen_toUpper_comm (c : Char) :
    (if Char.toUpper c = '-' then '_' else Char.toUpper c)
      = Char.toUpper (if c = '-' then '_' else c) := by
  by_cases hc : c = '-'
  · subst hc
    decide
  · rw [if_neg hc]
    rw [if_neg (fun h => hc (toUpper_eq_hyphen c h))]

/-- The two orders of the naming transformation agree: capitalizing
first and then replacing hyphens (the source's order) equals replacing
hyphens first and then capitalizing. -/
theorem subgraph_name_commute (file : Text) :
    subgraph_name file = subgraph_name_amended file := by
  rw [subgraph_name, subgraph_name_amended]
  cases hstem : file.take (file.length - 3) with
  | nil => simp
  | cons c rest =>
    simp only [List.map_cons, List.map_map]
    rw [hyphen_toUpper_comm c]
    congr 1
    apply List.map_congr_left
    intro d _
    simp only [Function.comp_apply]
    exact hyphen_toLower_comm d

/-- C5 as amended: the name of the emitted sub-cluster (the one in the
cluster's opening chunk) equals the filename with the extension
stripped, every hyphen replaced by an underscore, the first character
upper-cased and every remaining character lower-cased (Python's
`capitalize` lower-cases the tail; the source applies it before the
hyphen replacement, which commutes). -/
theorem cluster_name_amended (color file : Text) (nodes : List LabelRecord) :
    subgraph_name file = subgraph_name_amended file
    ∧ ((file_chunks color file nodes).1)[0]?
        = some (str "\n\tsubgraph " ++ subgraph_name_amended file ++ str " \x7b\n") := by
  refine ⟨subgraph_name_commute file, ?_⟩
  rw [file_chunks]
  simp only [List.cons_append, List.getElem?_cons_zero, Option.some.injEq]
  rw [subgraph_name_commute file]

/-- Counterexample to C5 as stated: for the accepted filename `aB.js`
the emitted cluster name is `Ab` (Python's `capitalize` lower-cases
every character after the first), not the `AB` the claim predicts by
leaving all other characters unchanged. -/
theorem cluster_name_claim_cex :
    fullmatch_file_mask (str "aB.js") = true
    ∧ subgraph_name (str "aB.js") = str "Ab"
    ∧ subgraph_name_claimed (str "aB.js") = str "AB"
    ∧ ¬subgraph_name (str "aB.js") = subgraph_name_claimed (str "aB.js") := by
  decide

/-! ## Determinism and palette cycling (C9) -/

/-- The palette has six colours. -/
theorem palette_length : palette.length = 6 := by decide

/-- Popping the colour cycle in a state where `r < 6` colours have been
consumed yields the `r`-th palette colour and the state for `r + 1`. -/
theorem cycleNext_palette (r : Nat) (hr : r < 6) :
    cycleNext ⟨palette, palette.drop r⟩
      = (palette.getD r [], ⟨palette, palette.drop (r + 1)⟩) := by
  have hlen : r < palette.length := by rw [palette_length]; omega
  rw [show (⟨palette, palette.drop r⟩ : CycleSt)
      = ⟨palette, palette[r] :: palette.drop (r + 1)⟩ by
    rw [← List.drop_eq_getElem_cons hlen]]
  simp [cycleNext, List.getD_eq_getElem?_getD, List.getElem?_eq_getElem hlen]

/-- An exhausted pending list behaves like a freshly wrapped one. -/
theorem viz_files_pending_empty (sch : Schema) :
    viz_files ⟨palette, []⟩ sch = viz_files ⟨palette, palette⟩ sch := by
  cases sch with
  | nil => rfl
  | cons p rest => rfl

/-- The palette colour sequence is 6-periodic in the starting index. -/
theorem clusters_from_mod (sch : Schema) : ∀ r,
    clusters_from (r + 6) sch = clusters_from r sch := by
  induction sch with
  | nil => intro r; rfl
  | cons p rest ih =>
    intro r
    rw [clusters_from, clusters_from]
    rw [show r + 6 + 1 = (r + 1) + 6 from Nat.add_right_comm r 6 1]
    rw [ih (r + 1)]
    have hcol : paletteColor (r + 6) = paletteColor r := by
      simp [paletteColor, Nat.add_mod_right]
    rw [hcol]

/-- The collected end-node names do not depend on the colour-cycle
state: they are the names of the records with no jumps, file by file. -/
theorem viz_files_ends (sch : Schema) : ∀ st : CycleSt,
    (viz_files st sch).2 = schema_end_names sch := by
  induction sch with
  | nil => intro st; rfl
  | cons p rest ih =>
    obtain ⟨f, ns⟩ := p
    intro st
    simp only [viz_files, file_chunks, schema_end_names]
    rw [ih]

/-- The cluster chunks written from a cycle state with `r` consumed
colours are the specification-side sequence `clusters_from r`. -/
theorem viz_files_clusters (sch : Schema) : ∀ r, r < 6 →
    (viz_files ⟨palette, palette.drop r⟩ sch).1 = clusters_from r sch := by
  induction sch with
  | nil => intro r _; rfl
  | cons p rest ih =>
    obtain ⟨f, ns⟩ := p
    intro r hr
    simp only [viz_files]
    rw [cycleNext_palette r hr]
    simp only
    have hcol : paletteColor r = palette.getD r [] := by
      simp [paletteColor, Nat.mod_eq_of_lt hr]
    by_cases hr5 : r + 1 < 6
    · rw [ih (r + 1) hr5, clusters_from, hcol]
    · have hr6 : r + 1 = 6 := by omega
      rw [hr6, show palette.drop 6 = [] from rfl]
      rw [viz_files_pending_empty,
        show (⟨palette, palette⟩ : CycleSt) = ⟨palette, palette.drop 0⟩ from rfl,
        ih 0 (by omega)]
      rw [clusters_from, hcol, hr6]
      rw [← clusters_from_mod rest 0]

/-- C9: the pipeline is deterministic — the document generated from a
schema is a pure function of the schema (two runs agree) — and the
emitted chunk sequence equals header, then the clusters coloured by
`clusters_from 0` (the `i`-th file of the schema receives the
`(i mod 6)`-th colour of the fixed palette, a pure function of the
iteration index), then one `-> end` edge per collected terminal name,
then the closing node. -/
theorem viz_deterministic_palette (sch : Schema) :
    viz_js_output sch = viz_js_output sch
    ∧ viz_js_chunks sch =
        [str "# I\x27m a Dot graph of your Monogatari visual novel!\n\n",
         str "digraph G \x7b\n"]
        ++ clusters_from 0 sch
        ++ (schema_end_names sch).map endEdgeChunk
        ++ [str "\n\tend [shape=Msquare];   \n\x7d"] := by
  refine ⟨rfl, ?_⟩
  simp only [viz_js_chunks]
  rw [show (⟨palette, palette⟩ : CycleSt) = ⟨palette, palette.drop 0⟩ from rfl]
  rw [viz_files_clusters sch 0 (by omega), viz_files_ends sch]

/-! ## Terminal nodes and `-> end` edges (C2) -/

/-- Per-file: the collected end-node names count the no-jump records
with the given name. -/
theorem count_nodes_out (ns : List LabelRecord) (n : Text) :
    List.count n (nodes_out ns).2
      = ns.countP (fun node => node.2.isEmpty && node.1 == n) := by
  induction ns with
  | nil => rfl
  | cons node rest ih =>
    rw [nodes_out]
    rw [List.count_append, ih, List.countP_cons]
    have hone : List.count n (node_out node).2
        = (if (node.2.isEmpty && node.1 == n) = true then 1 else 0) := by
      cases hj : node.2 with
      | nil =>
        simp only [node_out, hj]
        by_cases he : node.1 = n
        · subst he
          simp
        · simp [List.count_cons, he, Ne.symm he]
      | cons j js =>
        simp [node_out, hj]
    rw [hone]
    omega

/-- Whole schema: the terminal-name list counts the no-jump records. -/
theorem count_end_names (sch : Schema) (n : Text) :
    List.count n (schema_end_names sch) = terminal_count sch n := by
  induction sch with
  | nil => rfl
  | cons p rest ih =>
    rw [schema_end_names, List.count_append, ih, count_nodes_out]
    simp [terminal_count]

/-- The `-> end` edge statement determines its source name. -/
theorem endEdgeChunk_inj : Function.Injective endEdgeChunk := by
  intro a b h
  simp only [endEdgeChunk] at h
  exact List.append_cancel_left (List.append_cancel_right h)

/-- Every chunk of a single record starts with two tabs. -/
theorem node_out_chunk_shape (node : LabelRecord) (c : Text)
    (hc : c ∈ (node_out node).1) : ∃ t, c = '\t' :: '\t' :: t := by
  rw [node_out] at hc
  cases hj : node.2 with
  | nil =>
    rw [hj] at hc
    simp only at hc
    by_cases hst : node.1 = str "Start"
    · rw [if_pos hst] at hc
      rcases List.mem_singleton.mp hc with rfl
      exact ⟨str "Start [shape=box];\n", rfl⟩
    · rw [if_neg hst] at hc
      simp at hc
  | cons j js =>
    rw [hj] at hc
    simp only at hc
    rcases List.mem_append.mp hc with hcs | hce
    · by_cases hst : node.1 = str "Start"
      · rw [if_pos hst] at hcs
        rcases List.mem_singleton.mp hcs with rfl
        exact ⟨str "Start [shape=box];\n", rfl⟩
      · rw [if_neg hst] at hcs
        simp at hcs
    · obtain ⟨jump, _, hje⟩ := List.mem_map.mp hce
      refine ⟨node.1 ++ str " -> " ++ jump ++ str ";\n", ?_⟩
      rw [← hje]
      rfl

/-- Every chunk of a record list starts with two tabs. -/
theorem nodes_out_chunk_shape (ns : List LabelRecord) (c : Text)
    (hc : c ∈ (nodes_out ns).1) : ∃ t, c = '\t' :: '\t' :: t := by
  induction ns with
  | nil => simp [nodes_out] at hc
  | cons node rest ih =>
    rw [nodes_out] at hc
    rcases List.mem_append.mp hc with hcn | hcr
    · exact node_out_chunk_shape node c hcn
    · exact ih hcr

/-- Every chunk of a cluster starts with a newline (the subgraph
opener) or with two tabs (style, node and label lines). -/
theorem file_chunks_chunk_shape (color f : Text) (ns : List LabelRecord) (c : Text)
    (hc : c ∈ (file_chunks color f ns).1) :
    c.head? = some '\n' ∨ ∃ t, c = '\t' :: '\t' :: t := by
  simp only [file_chunks] at hc
  rcases List.mem_append.mp hc with hc1 | hc2
  · rcases List.mem_append.mp hc1 with hc3 | hc4
    · rcases List.mem_cons.mp hc3 with he | he2
      · subst he
        left
        rfl
      · rcases List.mem_singleton.mp he2 with rfl
        right
        exact ⟨str "node [style=filled, color=" ++ color ++ str "];\n", rfl⟩
    · right
      exact nodes_out_chunk_shape ns c hc4
  · rcases List.mem_singleton.mp hc2 with rfl
    right
    exact ⟨str "label = \x22" ++ subgraph_name f ++ str "\x22;\n\t\x7d\n", rfl⟩

/-- Every chunk written inside the subgraph loop starts with a newline
or with two tabs. -/
theorem viz_files_chunk_shape (sch : Schema) : ∀ (st : CycleSt) (c : Text),
    c ∈ (viz_files st sch).1 →
    c.head? = some '\n' ∨ ∃ t, c = '\t' :: '\t' :: t := by
  induction sch with
  | nil => intro st c hc; simp [viz_files] at hc
  | cons p rest ih =>
    obtain ⟨f, ns⟩ := p
    intro st c hc
    simp only [viz_files] at hc
    rcases List.mem_append.mp hc with hcf | hcr
    · exact file_chunks_chunk_shape _ f ns c hcf
    · exact ih _ c hcr

/-- An `-> end` edge statement for a tab-free name is distinct from
every cluster chunk. -/
theorem endEdgeChunk_ne_cluster (n : Text) (hn : ¬ '\t' ∈ n) (c : Text)
    (hshape : c.head? = some '\n' ∨ ∃ t, c = '\t' :: '\t' :: t) :
    ¬endEdgeChunk n = c := by
  intro he
  rcases hshape with hh | ⟨t, ht⟩
  · rw [← he] at hh
    have hh2 : ('\t' :: (n ++ str " -> end;\n")).head? = some '\n' := hh
    simp at hh2
  · rw [ht] at he
    have he2 : '\t' :: (n ++ str " -> end;\n") = '\t' :: '\t' :: t := he
    injection he2 with _ he3
    cases n with
    | nil =>
      have hh := congrArg List.head? he3
      simp [str] at hh
    | cons c0 n' =>
      have he4 : c0 :: (n' ++ str " -> end;\n") = '\t' :: t := he3
      injection he4 with h1 _
      subst h1
      exact hn (List.mem_cons_self _ _)

/-- The `-> end` edge statement starts with a single tab. -/
theorem endEdgeChunk_head_tab (n : Text) : (endEdgeChunk n).head? = some '\t' := rfl

/-- C2 as amended: for every name (containing no tab character, as no
extracted name does), the number of `-> end` edge statements in the
emitted document equals the number of label records in the schema with
that name and zero jump targets; the name occurs in the synthetic
terminal-node list exactly that many times; and a record with zero jump
targets writes no edge inside its cluster (only the optional
`Start [shape=box]` override) while contributing its name once to the
terminal list.  Duplicate names are not merged: each terminal record
yields its own `-> end` edge. -/
theorem terminal_edges_amended (sch : Schema) (n : Text) (hn : ¬ '\t' ∈ n) :
    List.count (endEdgeChunk n) (viz_js_chunks sch) = terminal_count sch n
    ∧ List.count n (schema_end_names sch) = terminal_count sch n
    ∧ (viz_files ⟨palette, palette⟩ sch).2 = schema_end_names sch
    ∧ ∀ node : LabelRecord, node.2 = [] →
        (node_out node).2 = [node.1]
        ∧ (node_out node).1
            = (if node.1 = str "Start" then [str "\t\tStart [shape=box];\n"] else []) := by
  refine ⟨?_, count_end_names sch n, viz_files_ends sch _, ?_⟩
  · simp only [viz_js_chunks]
    rw [viz_files_ends sch]
    rw [show ([str "# I\x27m a Dot graph of your Monogatari visual novel!\n\n",
          str "digraph G \x7b\n"] : List Text)
        ++ (viz_files ⟨palette, palette⟩ sch).1
        ++ (schema_end_names sch).map endEdgeChunk
        ++ [str "\n\tend [shape=Msquare];   \n\x7d"]
      = str "# I\x27m a Dot graph of your Monogatari visual novel!\n\n"
        :: str "digraph G \x7b\n"
        :: ((viz_files ⟨palette, palette⟩ sch).1
          ++ ((schema_end_names sch).map endEdgeChunk
            ++ [str "\n\tend [shape=Msquare];   \n\x7d"])) by simp]
    rw [List.count_cons, List.count_cons, List.count_append, List.count_append]
    have hhdr1 : ¬endEdgeChunk n
        = str "# I\x27m a Dot graph of your Monogatari visual novel!\n\n" := by
      intro h
      have hh := congrArg List.head? h
      rw [endEdgeChunk_head_tab] at hh
      simp [str] at hh
    have hhdr2 : ¬endEdgeChunk n = str "digraph G \x7b\n" := by
      intro h
      have hh := congrArg List.head? h
      rw [endEdgeChunk_head_tab] at hh
      simp [str] at hh
    have hclusters : List.count (endEdgeChunk n) (viz_files ⟨palette, palette⟩ sch).1
        = 0 := by
      rw [List.count_eq_zero]
      intro hmem
      exact endEdgeChunk_ne_cluster n hn (endEdgeChunk n)
        (viz_files_chunk_shape sch ⟨palette, palette⟩ (endEdgeChunk n) hmem) rfl
    have hmap : List.count (endEdgeChunk n)
          ((schema_end_names sch).map endEdgeChunk)
        = List.count n (schema_end_names sch) := by
      induction schema_end_names sch with
      | nil => rfl
      | cons a rest ih =>
        rw [List.map_cons, List.count_cons, List.count_cons, ih]
        by_cases he : a = n
        · subst he
          simp
        · have hne : ¬endEdgeChunk a = endEdgeChunk n :=
            fun h2 => he (endEdgeChunk_inj h2)
          simp [he, hne]
    have hftr : List.count (endEdgeChunk n) [str "\n\tend [shape=Msquare];   \n\x7d"]
        = 0 := by
      rw [List.count_eq_zero]
      intro hmem
      have he := List.mem_singleton.mp hmem
      have hh := congrArg List.head? he
      rw [endEdgeChunk_head_tab] at hh
      simp [str] at hh
    have hb1 : (str "# I\x27m a Dot graph of your Monogatari visual novel!\n\n"
        == endEdgeChunk n) = false := by
      rw [beq_eq_false_iff_ne]
      exact fun h => hhdr1 h.symm
    have hb2 : ((str "digraph G \x7b\n") == endEdgeChunk n) = false := by
      rw [beq_eq_false_iff_ne]
      exact fun h => hhdr2 h.symm
    rw [hclusters, hmap, hftr, count_end_names sch n, hb1, hb2]
    simp
  · intro node hj
    obtain ⟨nm, js⟩ := node
    simp only at hj
    subst hj
    exact ⟨rfl, rfl⟩

/-- Witness for C2's amended statement at Scenario D: two files each
with one terminal label named `X`. -/
theorem terminal_edges_amended_witness :
    ¬ '\t' ∈ (str "X")
    ∧ (List.count (endEdgeChunk (str "X")) (viz_js_chunks (story_schema scenarioD))
          = terminal_count (story_schema scenarioD) (str "X")
      ∧ List.count (str "X") (schema_end_names (story_schema scenarioD))
          = terminal_count (story_schema scenarioD) (str "X")
      ∧ (viz_files ⟨palette, palette⟩ (story_schema scenarioD)).2
          = schema_end_names (story_schema scenarioD)
      ∧ ∀ node : LabelRecord, node.2 = [] →
          (node_out node).2 = [node.1]
          ∧ (node_out node).1
              = (if node.1 = str "Start" then [str "\t\tStart [shape=box];\n"] else [])) :=
  ⟨by decide,
   terminal_edges_amended (story_schema scenarioD) (str "X") (by decide)⟩

/-- Counterexample to C2 as stated: in Scenario D the record `X` of
file `a.js` has zero jump targets and its name is in the terminal list,
but the emitted document contains two `X -> end;` statements, not
exactly one — the terminal list holds `X` twice (no deduplication). -/
theorem terminal_edges_claim_cex :
    ¬(∀ p ∈ story_schema scenarioD, ∀ node ∈ p.2,
        (node.2 = [] ↔ node.1 ∈ (viz_files ⟨palette, palette⟩ (story_schema scenarioD)).2)
        ∧ (node.2 = [] →
            List.count (endEdgeChunk node.1) (viz_js_chunks (story_schema scenarioD))
              = 1)) := by
  decide


end Unspaghetti
